import Mathlib

/-!
Verification of the recurring-event expansion routine of the pottery
calendar application (`potterycalendar.py`).

The only non-trivial component is `expand_recurrence` (source lines
212–236): given a prototype event record, a frequency name, an optional
repeat count and an optional "until" date, it expands the prototype
into a list of concrete occurrences using the `dateutil.rrule`
generator with `DAILY`/`WEEKLY`/`MONTHLY`/`YEARLY` rules.

Embedding choices:
* Naive Python `datetime` values are embedded as a calendar record
  `DateTime` (year/month/day/hour/minute/second) over `Nat`, at the
  second granularity the application produces (form inputs are
  minute-granular, and `_now_tzless` strips microseconds).  Comparison
  and subtraction of datetimes — which Python defines through
  `toordinal` plus seconds-of-day — are embedded through `secs`, the
  total second count since 0001-01-01 00:00:00 of the proleptic
  Gregorian calendar.
* `dateutil.rrule` is an external library; `anchors` models its
  documented stream semantics for the four frequencies used: the
  stream starts at `dtstart` and advances by the calendar unit,
  skipping calendar-invalid dates (e.g. a monthly rule anchored on the
  31st skips 30-day months, a yearly rule anchored on Feb 29 skips
  non-leap years), keeping `dtstart`'s time of day.
* The Python `for` loop over `rrule(...)` does not terminate when the
  rule carries neither a `count` nor an `until` bound (the stream is
  infinite); the embedding `expand_recurrence` therefore returns an
  `Option`, with `none` standing for this divergence.
* `generate_id` draws fresh UUIDs from a process-wide source; it is
  embedded as a function `genId : Nat → String` giving the id minted
  at the i-th call of one expansion.
-/

namespace PC

/-- A naive (timezone-less) calendar date-time at second granularity,
the shape of Python `datetime` values flowing through the app. -/
structure DateTime where
  y : Nat
  m : Nat
  d : Nat
  hh : Nat
  mi : Nat
  ss : Nat
  deriving DecidableEq, Repr

/-- A calendar date, the shape of Python `date` values (the `until`
form input). -/
structure Date where
  y : Nat
  m : Nat
  d : Nat
  deriving DecidableEq, Repr

/-- Gregorian leap-year test, as in Python's `calendar.isleap`. -/
def isLeap (y : Nat) : Bool :=
  decide ((y % 4 = 0 ∧ y % 100 ≠ 0) ∨ y % 400 = 0)

/-- Number of days in month `m` of a year with leap status `leap`
(months outside 1..12 get 0). -/
def monthDays (leap : Bool) (m : Nat) : Nat :=
  if m = 1 then 31
  else if m = 2 then (if leap then 29 else 28)
  else if m = 3 then 31
  else if m = 4 then 30
  else if m = 5 then 31
  else if m = 6 then 30
  else if m = 7 then 31
  else if m = 8 then 31
  else if m = 9 then 30
  else if m = 10 then 31
  else if m = 11 then 30
  else if m = 12 then 31
  else 0

/-- Days in the months strictly before month `m` within one year. -/
def daysBeforeMonth (leap : Bool) (m : Nat) : Nat :=
  (if m = 1 then 0
   else if m = 2 then 31
   else if m = 3 then 59
   else if m = 4 then 90
   else if m = 5 then 120
   else if m = 6 then 151
   else if m = 7 then 181
   else if m = 8 then 212
   else if m = 9 then 243
   else if m = 10 then 273
   else if m = 11 then 304
   else if m = 12 then 334
   else 0)
  + (if 3 ≤ m ∧ m ≤ 12 ∧ leap then 1 else 0)

/-- Number of leap years in `1 .. y-1`. -/
def leapsBefore (y : Nat) : Nat :=
  (y - 1) / 4 - (y - 1) / 100 + (y - 1) / 400

/-- Day index of the calendar day `(y, m, d)`: the number of days
since 0001-01-01 (Python's `date.toordinal() - 1`). -/
def daysOfYMD (y m d : Nat) : Nat :=
  365 * (y - 1) + leapsBefore y + daysBeforeMonth (isLeap y) m + (d - 1)

/-- Day index of a date-time's calendar day. -/
def dayIndex (dt : DateTime) : Nat :=
  daysOfYMD dt.y dt.m dt.d

/-- Day index of a `Date`. -/
def dayIndexD (u : Date) : Nat :=
  daysOfYMD u.y u.m u.d

/-- Seconds elapsed within the day. -/
def todOf (dt : DateTime) : Nat :=
  3600 * dt.hh + 60 * dt.mi + dt.ss

/-- Total seconds since 0001-01-01 00:00:00; Python datetime
comparison and subtraction coincide with comparison and subtraction of
this count. -/
def secs (dt : DateTime) : Nat :=
  86400 * dayIndex dt + todOf dt

/-- `secs` as an integer, for signed datetime differences
(Python `timedelta`). -/
def secsZ (dt : DateTime) : Int :=
  (secs dt : Int)

/-- Well-formedness of a date-time: the fields describe a real
calendar instant, as every Python `datetime` value does by
construction. -/
def validDT (dt : DateTime) : Prop :=
  1 ≤ dt.y ∧ 1 ≤ dt.m ∧ dt.m ≤ 12 ∧ 1 ≤ dt.d ∧
    dt.d ≤ monthDays (isLeap dt.y) dt.m ∧ dt.hh < 24 ∧ dt.mi < 60 ∧ dt.ss < 60

instance (dt : DateTime) : Decidable (validDT dt) := by
  unfold validDT; infer_instance

/-- The calendar day after `dt` (same time of day). -/
def nextDay (dt : DateTime) : DateTime :=
  if dt.d < monthDays (isLeap dt.y) dt.m then
    { dt with d := dt.d + 1 }
  else if dt.m < 12 then
    { dt with m := dt.m + 1, d := 1 }
  else
    { dt with y := dt.y + 1, m := 1, d := 1 }

/-- The calendar day before `dt` (same time of day). -/
def prevDay (dt : DateTime) : DateTime :=
  if 1 < dt.d then
    { dt with d := dt.d - 1 }
  else if 1 < dt.m then
    { dt with m := dt.m - 1, d := monthDays (isLeap dt.y) (dt.m - 1) }
  else
    { dt with y := dt.y - 1, m := 12, d := 31 }

/-- Shift `dt` forward by `n` calendar days. -/
def addDays (dt : DateTime) : Nat → DateTime
  | 0 => dt
  | n + 1 => nextDay (addDays dt n)

/-- Shift `dt` back by `n` calendar days. -/
def subDays (dt : DateTime) : Nat → DateTime
  | 0 => dt
  | n + 1 => prevDay (subDays dt n)

/-- Replace the time-of-day of `dt` by `t` seconds after midnight. -/
def withTod (dt : DateTime) (t : Nat) : DateTime :=
  { dt with hh := t / 3600, mi := t % 3600 / 60, ss := t % 60 }

/-- Shift a date-time by a signed number of seconds: Python
`datetime + timedelta`. -/
def addSecsZ (dt : DateTime) (δ : Int) : DateTime :=
  let t : Int := (todOf dt : Int) + δ
  let q : Int := t / 86400
  let r : Int := t % 86400
  let dt' := withTod dt r.toNat
  if 0 ≤ q then addDays dt' q.toNat else subDays dt' (-q).toNat

/-- The recurrence frequencies of `dateutil.rrule` used by the app. -/
inductive Freq where
  | daily
  | weekly
  | monthly
  | yearly
  deriving DecidableEq, Repr

/-- Absolute month index `12*y + (m-1)` of a year/month pair. -/
def monthIdxOf (y m : Nat) : Nat :=
  12 * y + (m - 1)

/-- Days in the month with absolute index `M`. -/
def dimM (M : Nat) : Nat :=
  monthDays (isLeap (M / 12)) (M % 12 + 1)

/-- Day index of day `d` of the month with absolute index `M`. -/
def daysOfM (M d : Nat) : Nat :=
  daysOfYMD (M / 12) (M % 12 + 1) d

/-- First month index `≥ M` whose month is long enough to contain day
`d`, searched with explicit fuel.  For a real day number (`1 ≤ d ≤ 31`)
the search always succeeds within two months, so fuel 2 suffices. -/
def nextValidMonth (d : Nat) : Nat → Nat → Nat
  | 0, M => M
  | f + 1, M => if d ≤ dimM M then M else nextValidMonth d f (M + 1)

/-- Month index of the `i`-th instance of a monthly rule whose
`dtstart` sits in month `M0` on day `d`: `dateutil`'s `MONTHLY` rule
skips months too short for `dtstart`'s day of month. -/
def monthlyIdx (d M0 : Nat) : Nat → Nat
  | 0 => M0
  | i + 1 => nextValidMonth d 2 (monthlyIdx d M0 i + 1)

/-- First year `≥ y` in which month `m` is long enough to contain day
`d`, searched with explicit fuel.  Only Feb 29 ever fails, and any 8
consecutive years contain a leap year, so fuel 8 suffices. -/
def nextValidYear (m d : Nat) : Nat → Nat → Nat
  | 0, y => y
  | f + 1, y => if d ≤ monthDays (isLeap y) m then y else nextValidYear m d f (y + 1)

/-- Year of the `i`-th instance of a yearly rule anchored at
`(y0, m, d)`: `dateutil`'s `YEARLY` rule skips years in which the
anchor date does not exist (Feb 29 of non-leap years). -/
def yearlyIdx (m d y0 : Nat) : Nat → Nat
  | 0 => y0
  | i + 1 => nextValidYear m d 8 (yearlyIdx m d y0 i + 1)

/-- The `i`-th element of the infinite instance stream of
`rrule(rule, dtstart=s)`, for the four frequencies the app uses.  All
four keep `dtstart`'s time of day. -/
def anchors (rule : Freq) (s : DateTime) (i : Nat) : DateTime :=
  match rule with
  | .daily => addDays s i
  | .weekly => addDays s (7 * i)
  | .monthly =>
      let M := monthlyIdx s.d (monthIdxOf s.y (s.m)) i
      { y := M / 12, m := M % 12 + 1, d := s.d, hh := s.hh, mi := s.mi, ss := s.ss }
  | .yearly =>
      { y := yearlyIdx s.m s.d s.y i, m := s.m, d := s.d,
        hh := s.hh, mi := s.mi, ss := s.ss }

/-- Enough stream positions to cover every instance `≤ until`: each
step of every rule advances by at least one calendar day, so positions
beyond the day distance from `dtstart` to `until` all exceed
`until`. -/
def untilFuel (dtstart u : DateTime) : Nat :=
  (dayIndex u + 2) - dayIndex dtstart

/-- The finite instance list of `rrule(rule, dtstart=s, **kwargs)`
under the optional `count`/`until` bounds, modelling `dateutil`:
`count` caps the number of instances, `until` keeps instances up to
and including that instant, and whichever bound is reached first
stops the stream.  With neither bound the stream is infinite and the
surrounding `for` loop diverges, represented by `none`. -/
def rruleList (rule : Freq) (s : DateTime) :
    Option Nat → Option DateTime → Option (List DateTime)
  | none, none => none
  | some k, none => some ((List.range k).map (anchors rule s))
  | some k, some u =>
      some (((List.range k).map (anchors rule s)).takeWhile
        (fun a => decide (secs a ≤ secs u)))
  | none, some u =>
      some (((List.range (untilFuel s u)).map (anchors rule s)).takeWhile
        (fun a => decide (secs a ≤ secs u)))

/-- An event record, the shape of the dicts the calendar screens pass
around (the Python key `"end"` is a Lean keyword and is embedded as
`end_`). -/
structure Event where
  id : String
  title : String
  category : String
  task_type : String
  start : DateTime
  end_ : DateTime
  all_day : Bool
  location : String
  notes : String
  created_at : DateTime
  updated_at : DateTime
  deriving DecidableEq, Repr

/-- `RECURRENCE_MAP.get(freq_name)` of the source: the dict maps the
string `"None"` to the value `None` and the four frequency names to
the corresponding `dateutil` rule constants; `.get` yields `None` for
every other key. -/
def RECURRENCE_MAP (freq_name : String) : Option Freq :=
  if freq_name = "Daily" then some .daily
  else if freq_name = "Weekly" then some .weekly
  else if freq_name = "Monthly" then some .monthly
  else if freq_name = "Yearly" then some .yearly
  else none

/-- The occurrence built for the `i`-th instance `dt` of the rule
stream: a copy of the prototype with a fresh id, shifted `start`/`end`
and the disambiguated title (source lines 229–234). -/
def mkInst (genId : Nat → String) (base_event : Event) (i : Nat) (dt : DateTime) : Event :=
  let delta : Int := secsZ base_event.end_ - secsZ base_event.start
  { base_event with
      id := genId i
      start := dt
      end_ := addSecsZ dt delta
      title := if i = 0 then base_event.title
               else base_event.title ++ " (" ++ toString (i + 1) ++ ")" }

/-- `expand_recurrence(base_event, freq_name, count, until)` of the
source (lines 212–236).  `count` is the Python `int | None` argument
(`if count and count > 0` treats a non-positive count as absent);
`until`, when given, is normalized to 23:59:59 of its day.  `none`
stands for the divergence of the instance loop when the rule carries
no bound. -/
def expand_recurrence (genId : Nat → String) (base_event : Event)
    (freq_name : String) (count : Option Int) (until_ : Option Date) :
    Option (List Event) :=
  match RECURRENCE_MAP freq_name with
  | none => some [base_event]
  | some rule =>
      let effCount : Option Nat :=
        match count with
        | some c => if 0 < c then some c.toNat else none
        | none => none
      let until_dt : Option DateTime :=
        until_.map (fun u => ⟨u.y, u.m, u.d, 23, 59, 59⟩)
      (rruleList rule base_event.start effCount until_dt).map
        (fun dts => dts.enum.map (fun p => mkInst genId base_event p.1 p.2))

/-- A concrete prototype event (2024-01-01 09:00 – 12:00) used to
instantiate the theorems below on explicit inputs. -/
def sampleEvent : Event :=
  { id := "base-id"
    title := "T"
    category := "Studio"
    task_type := "Throwing"
    start := ⟨2024, 1, 1, 9, 0, 0⟩
    end_ := ⟨2024, 1, 1, 12, 0, 0⟩
    all_day := false
    location := ""
    notes := ""
    created_at := ⟨2023, 12, 31, 8, 0, 0⟩
    updated_at := ⟨2023, 12, 31, 8, 0, 0⟩ }

/-- A concrete fresh-id source used to instantiate the theorems below. -/
def sampleGenId : Nat → String := fun i => "occ-" ++ toString i

/-! ### Day-stepping arithmetic on the Gregorian calendar -/

theorem monthDays_lb (l : Bool) (m : Nat) (h1 : 1 ≤ m) (h2 : m ≤ 12) :
    28 ≤ monthDays l m := by
  interval_cases m <;> cases l <;> decide

theorem monthDays_big (l : Bool) (m : Nat) (h : 13 ≤ m) : monthDays l m = 0 := by
  simp [monthDays, show m ≠ 1 by omega, show m ≠ 2 by omega, show m ≠ 3 by omega,
    show m ≠ 4 by omega, show m ≠ 5 by omega, show m ≠ 6 by omega,
    show m ≠ 7 by omega, show m ≠ 8 by omega, show m ≠ 9 by omega,
    show m ≠ 10 by omega, show m ≠ 11 by omega, show m ≠ 12 by omega]

theorem monthDays_ub (l : Bool) (m : Nat) : monthDays l m ≤ 31 := by
  rcases Nat.lt_or_ge m 13 with h | h
  · interval_cases m <;> cases l <;> decide
  · rw [monthDays_big l m h]
    omega

theorem tod_lt (dt : DateTime) (h : validDT dt) : todOf dt < 86400 := by
  obtain ⟨-, -, -, -, -, h1, h2, h3⟩ := h
  unfold todOf
  omega

theorem leapsBefore_succ (y : Nat) (hy : 1 ≤ y) :
    leapsBefore (y + 1) = leapsBefore y + (if isLeap y then 1 else 0) := by
  cases h : isLeap y with
  | false =>
      have h' : ¬((y % 4 = 0 ∧ y % 100 ≠ 0) ∨ y % 400 = 0) := by
        simpa [isLeap] using h
      simp only [h, Bool.false_eq_true, if_false]
      unfold leapsBefore
      omega
  | true =>
      have h' : (y % 4 = 0 ∧ y % 100 ≠ 0) ∨ y % 400 = 0 := by
        simpa [isLeap] using h
      simp only [h, if_true]
      unfold leapsBefore
      omega

theorem dayIndex_nextDay (dt : DateTime) (h : validDT dt) :
    dayIndex (nextDay dt) = dayIndex dt + 1 := by
  obtain ⟨y, m, d, hh, mi, ss⟩ := dt
  obtain ⟨hy, hm1, hm2, hd1, hd2, -, -, -⟩ := h
  simp only at hy hm1 hm2 hd1 hd2
  unfold nextDay
  split
  · simp only [dayIndex, daysOfYMD]
    omega
  · rename_i hdd
    split
    · rename_i hm12
      simp only at hdd hm12
      simp only [dayIndex, daysOfYMD]
      have hd : d = monthDays (isLeap y) m := by
        have := monthDays_ub (isLeap y) m
        omega
      interval_cases m <;>
        cases hL : isLeap y <;>
          simp [daysBeforeMonth, monthDays, hL] at hd ⊢ <;> omega
    · rename_i hm12
      simp only at hdd hm12
      have hm : m = 12 := by omega
      subst hm
      have h12 : monthDays (isLeap y) 12 = 31 := by simp [monthDays]
      have hd : d = 31 := by omega
      subst hd
      simp only [dayIndex, daysOfYMD]
      rw [leapsBefore_succ y hy]
      cases hL : isLeap y <;> simp [daysBeforeMonth, hL] <;> omega

theorem validDT_nextDay (dt : DateTime) (h : validDT dt) :
    validDT (nextDay dt) := by
  obtain ⟨y, m, d, hh, mi, ss⟩ := dt
  obtain ⟨hy, hm1, hm2, hd1, hd2, ht1, ht2, ht3⟩ := h
  simp only at hy hm1 hm2 hd1 hd2 ht1 ht2 ht3
  unfold nextDay
  split
  · rename_i hdd
    simp only at hdd
    simp only [validDT]
    exact ⟨hy, hm1, hm2, by omega, by omega, ht1, ht2, ht3⟩
  · rename_i hdd
    simp only at hdd
    split
    · rename_i hm12
      simp only at hm12
      simp only [validDT]
      have hlb := monthDays_lb (isLeap y) (m + 1) (by omega) (by omega)
      exact ⟨hy, by omega, by omega, by omega, by omega, ht1, ht2, ht3⟩
    · simp only [validDT]
      have hlb := monthDays_lb (isLeap (y + 1)) 1 (by omega) (by omega)
      exact ⟨by omega, by omega, by omega, by omega, by omega, ht1, ht2, ht3⟩

theorem validDT_addDays (dt : DateTime) (h : validDT dt) (n : Nat) :
    validDT (addDays dt n) := by
  induction n with
  | zero => exact h
  | succ n ih => exact validDT_nextDay _ ih

theorem dayIndex_addDays (dt : DateTime) (h : validDT dt) (n : Nat) :
    dayIndex (addDays dt n) = dayIndex dt + n := by
  induction n with
  | zero => rfl
  | succ n ih =>
      show dayIndex (nextDay (addDays dt n)) = _
      rw [dayIndex_nextDay _ (validDT_addDays dt h n), ih]
      omega

theorem todOf_nextDay (dt : DateTime) : todOf (nextDay dt) = todOf dt := by
  unfold nextDay
  split
  · rfl
  · split <;> rfl

theorem todOf_addDays (dt : DateTime) (n : Nat) :
    todOf (addDays dt n) = todOf dt := by
  induction n with
  | zero => rfl
  | succ n ih => show todOf (nextDay _) = _; rw [todOf_nextDay, ih]

theorem secs_addDays (dt : DateTime) (h : validDT dt) (n : Nat) :
    secs (addDays dt n) = secs dt + 86400 * n := by
  unfold secs
  rw [dayIndex_addDays dt h n, todOf_addDays]
  ring

theorem dayIndex_withTod (dt : DateTime) (t : Nat) :
    dayIndex (withTod dt t) = dayIndex dt := rfl

theorem todOf_withTod (dt : DateTime) (t : Nat) :
    todOf (withTod dt t) = t := by
  obtain ⟨y, m, d, hh, mi, ss⟩ := dt
  simp only [withTod, todOf]
  omega

theorem validDT_withTod (dt : DateTime) (t : Nat) (h : validDT dt) (hlt : t < 86400) :
    validDT (withTod dt t) := by
  obtain ⟨y, m, d, hh, mi, ss⟩ := dt
  obtain ⟨hy, hm1, hm2, hd1, hd2, -, -, -⟩ := h
  simp only at hy hm1 hm2 hd1 hd2
  simp only [withTod, validDT]
  exact ⟨hy, hm1, hm2, hd1, hd2, by omega, by omega, by omega⟩

theorem secsZ_addSecsZ (dt : DateTime) (h : validDT dt) (δ : Int) (hδ : 0 ≤ δ) :
    secsZ (addSecsZ dt δ) = secsZ dt + δ := by
  have ht0 : (0 : Int) ≤ (todOf dt : Int) + δ := by omega
  have hq0 : (0 : Int) ≤ ((todOf dt : Int) + δ) / 86400 :=
    Int.ediv_nonneg ht0 (by omega)
  have hr0 : (0 : Int) ≤ ((todOf dt : Int) + δ) % 86400 :=
    Int.emod_nonneg _ (by omega)
  have hrlt : ((todOf dt : Int) + δ) % 86400 < 86400 :=
    Int.emod_lt_of_pos _ (by omega)
  have hrn : (((todOf dt : Int) + δ) % 86400).toNat < 86400 := by omega
  have hqr : 86400 * (((todOf dt : Int) + δ) / 86400) + ((todOf dt : Int) + δ) % 86400
      = (todOf dt : Int) + δ := Int.ediv_add_emod _ _
  simp only [addSecsZ, if_pos hq0]
  unfold secsZ
  rw [secs_addDays _ (validDT_withTod dt _ h hrn)]
  unfold secs
  rw [dayIndex_withTod, todOf_withTod]
  push_cast
  omega

/-! ### Month-index arithmetic for the monthly rule -/

theorem monthIdxOf_div (y m : Nat) (h1 : 1 ≤ m) (h2 : m ≤ 12) :
    monthIdxOf y m / 12 = y ∧ monthIdxOf y m % 12 + 1 = m := by
  unfold monthIdxOf
  omega

theorem daysBeforeMonth_succ (l : Bool) (m : Nat) (h1 : 1 ≤ m) (h2 : m ≤ 11) :
    daysBeforeMonth l (m + 1) = daysBeforeMonth l m + monthDays l m := by
  interval_cases m <;> cases l <;> decide

theorem daysBeforeMonth_one (l : Bool) : daysBeforeMonth l 1 = 0 := by
  cases l <;> decide

theorem monthDays_twelve (l : Bool) : monthDays l 12 = 31 := by
  cases l <;> decide

theorem daysBeforeMonth_twelve (l : Bool) :
    daysBeforeMonth l 12 = 334 + (if l then 1 else 0) := by
  cases l <;> decide

theorem daysOfM_succ (M d : Nat) (hM : 12 ≤ M) :
    daysOfM (M + 1) d = daysOfM M d + dimM M := by
  unfold daysOfM dimM
  rcases Nat.lt_or_ge (M % 12) 11 with hr | hr
  · have h1 : (M + 1) / 12 = M / 12 := by omega
    have h2 : (M + 1) % 12 = M % 12 + 1 := by omega
    rw [h1, h2]
    unfold daysOfYMD
    rw [daysBeforeMonth_succ _ _ (by omega) (by omega)]
    omega
  · have hr11 : M % 12 = 11 := by omega
    have h1 : (M + 1) / 12 = M / 12 + 1 := by omega
    have h2 : (M + 1) % 12 = 0 := by omega
    have hy : 1 ≤ M / 12 := by omega
    rw [h1, h2, hr11]
    unfold daysOfYMD
    rw [daysBeforeMonth_one, monthDays_twelve, leapsBefore_succ _ hy,
      daysBeforeMonth_twelve]
    cases hL : isLeap (M / 12) <;> simp [hL] <;> omega

theorem dimM_lb (M : Nat) : 28 ≤ dimM M := by
  unfold dimM
  exact monthDays_lb _ _ (by omega) (by omega)

theorem daysOfM_mono (M M' d : Nat) (hM : 12 ≤ M) (h : M < M') :
    daysOfM M d + 28 ≤ daysOfM M' d := by
  induction M' with
  | zero => omega
  | succ n ih =>
      rcases Nat.lt_or_ge M n with h' | h'
      · have := ih h'
        have hn : 12 ≤ n := by omega
        have := daysOfM_succ n d hn
        omega
      · have hMn : M = n := by omega
        subst hMn
        have := daysOfM_succ M d hM
        have := dimM_lb M
        omega

theorem dimM_or_succ (M : Nat) : dimM M = 31 ∨ dimM (M + 1) = 31 := by
  have h31 : ∀ l : Bool, monthDays l 1 = 31 ∧ monthDays l 3 = 31 ∧ monthDays l 5 = 31 ∧
      monthDays l 7 = 31 ∧ monthDays l 8 = 31 ∧ monthDays l 10 = 31 ∧
      monthDays l 12 = 31 := by decide
  have hmod : M % 12 = 0 ∨ M % 12 = 1 ∨ M % 12 = 2 ∨ M % 12 = 3 ∨ M % 12 = 4 ∨
      M % 12 = 5 ∨ M % 12 = 6 ∨ M % 12 = 7 ∨ M % 12 = 8 ∨ M % 12 = 9 ∨
      M % 12 = 10 ∨ M % 12 = 11 := by omega
  unfold dimM
  rcases hmod with h|h|h|h|h|h|h|h|h|h|h|h
  · left; rw [h]; simpa using (h31 (isLeap (M / 12))).1
  · right; rw [show (M + 1) % 12 = 2 by omega]; simpa using (h31 (isLeap ((M + 1) / 12))).2.1
  · left; rw [h]; simpa using (h31 (isLeap (M / 12))).2.1
  · right; rw [show (M + 1) % 12 = 4 by omega]; simpa using (h31 (isLeap ((M + 1) / 12))).2.2.1
  · left; rw [h]; simpa using (h31 (isLeap (M / 12))).2.2.1
  · right; rw [show (M + 1) % 12 = 6 by omega]; simpa using (h31 (isLeap ((M + 1) / 12))).2.2.2.1
  · left; rw [h]; simpa using (h31 (isLeap (M / 12))).2.2.2.1
  · left; rw [h]; simpa using (h31 (isLeap (M / 12))).2.2.2.2.1
  · right; rw [show (M + 1) % 12 = 9 by omega]; simpa using (h31 (isLeap ((M + 1) / 12))).2.2.2.2.2.1
  · left; rw [h]; simpa using (h31 (isLeap (M / 12))).2.2.2.2.2.1
  · right; rw [show (M + 1) % 12 = 11 by omega]; simpa using (h31 (isLeap ((M + 1) / 12))).2.2.2.2.2.2
  · left; rw [h]; simpa using (h31 (isLeap (M / 12))).2.2.2.2.2.2

theorem nextValidMonth_bounds (d M : Nat) :
    M ≤ nextValidMonth d 2 M ∧ nextValidMonth d 2 M ≤ M + 2 := by
  simp only [nextValidMonth]
  split_ifs <;> omega

theorem nextValidMonth_valid (d M : Nat) (hd : d ≤ 31) :
    d ≤ dimM (nextValidMonth d 2 M) := by
  simp only [nextValidMonth]
  rcases dimM_or_succ M with h | h <;> split_ifs <;> omega

theorem monthlyIdx_ge (d M0 i : Nat) : M0 ≤ monthlyIdx d M0 i := by
  induction i with
  | zero => exact Nat.le_refl _
  | succ n ih =>
      have := (nextValidMonth_bounds d (monthlyIdx d M0 n + 1)).1
      simp only [monthlyIdx]
      omega

theorem monthlyIdx_lt_succ (d M0 i : Nat) :
    monthlyIdx d M0 i < monthlyIdx d M0 (i + 1) := by
  have := (nextValidMonth_bounds d (monthlyIdx d M0 i + 1)).1
  simp only [monthlyIdx]
  omega

theorem monthlyIdx_valid (d M0 i : Nat) (hd : d ≤ 31) (h0 : d ≤ dimM M0) :
    d ≤ dimM (monthlyIdx d M0 i) := by
  cases i with
  | zero => exact h0
  | succ n => exact nextValidMonth_valid d _ hd

/-! ### Year arithmetic for the yearly rule -/

theorem daysBeforeMonth_big (l : Bool) (m : Nat) (h : 13 ≤ m) :
    daysBeforeMonth l m = 0 := by
  simp [daysBeforeMonth, show m ≠ 1 by omega, show m ≠ 2 by omega, show m ≠ 3 by omega,
    show m ≠ 4 by omega, show m ≠ 5 by omega, show m ≠ 6 by omega,
    show m ≠ 7 by omega, show m ≠ 8 by omega, show m ≠ 9 by omega,
    show m ≠ 10 by omega, show m ≠ 11 by omega, show m ≠ 12 by omega,
    show ¬(m ≤ 12) by omega]

theorem daysBeforeMonth_le_succ (l l' : Bool) (m : Nat) :
    daysBeforeMonth l m ≤ daysBeforeMonth l' m + 1 := by
  rcases Nat.lt_or_ge m 13 with h | h
  · interval_cases m <;> cases l <;> cases l' <;> decide
  · rw [daysBeforeMonth_big l m h, daysBeforeMonth_big l' m h]
    omega

theorem daysOfYMD_year_succ_lt (y m d : Nat) (hy : 1 ≤ y) :
    daysOfYMD y m d < daysOfYMD (y + 1) m d := by
  unfold daysOfYMD
  rw [leapsBefore_succ _ hy]
  have hdiff := daysBeforeMonth_le_succ (isLeap y) (isLeap (y + 1)) m
  cases hL : isLeap y <;> simp [hL] at hdiff ⊢ <;> omega

theorem daysOfYMD_year_lt (y y' m d : Nat) (hy : 1 ≤ y) (h : y < y') :
    daysOfYMD y m d < daysOfYMD y' m d := by
  induction y' with
  | zero => omega
  | succ n ih =>
      rcases Nat.lt_or_ge y n with h' | h'
      · have := ih h'
        have := daysOfYMD_year_succ_lt n m d (by omega)
        omega
      · have hyn : y = n := by omega
        subst hyn
        exact daysOfYMD_year_succ_lt y m d hy

theorem monthDays_eq_of_ne_two (l l' : Bool) (m : Nat) (hm : m ≠ 2) :
    monthDays l m = monthDays l' m := by
  rcases Nat.lt_or_ge m 13 with h | h
  · interval_cases m <;> cases l <;> cases l' <;>
      first
        | decide
        | (exact absurd rfl hm)
  · rw [monthDays_big l m h, monthDays_big l' m h]

theorem leap_exists_in_eight (y : Nat) :
    ∃ k, 1 ≤ k ∧ k ≤ 8 ∧ isLeap (y + k) = true := by
  by_cases hL : isLeap (4 * (y / 4) + 4) = true
  · exact ⟨4 * (y / 4) + 4 - y, by omega, by omega,
      by rwa [show y + (4 * (y / 4) + 4 - y) = 4 * (y / 4) + 4 by omega]⟩
  · have h' : ¬(((4 * (y / 4) + 4) % 4 = 0 ∧ (4 * (y / 4) + 4) % 100 ≠ 0) ∨
        (4 * (y / 4) + 4) % 400 = 0) := by
      simpa [isLeap] using hL
    have hL2 : isLeap (4 * (y / 4) + 4 + 4) = true := by
      simp only [isLeap, decide_eq_true_eq]
      left
      omega
    exact ⟨4 * (y / 4) + 4 + 4 - y, by omega, by omega,
      by rwa [show y + (4 * (y / 4) + 4 + 4 - y) = 4 * (y / 4) + 4 + 4 by omega]⟩

theorem nextValidYear_bounds (m d y f : Nat) :
    y ≤ nextValidYear m d f y ∧ nextValidYear m d f y ≤ y + f := by
  induction f generalizing y with
  | zero => simp [nextValidYear]
  | succ n ih =>
      simp only [nextValidYear]
      split_ifs
      · omega
      · have := ih (y + 1)
        omega

theorem nextValidYear_found (m d : Nat) (f : Nat) (y : Nat)
    (hex : ∃ k, k ≤ f ∧ d ≤ monthDays (isLeap (y + k)) m) :
    d ≤ monthDays (isLeap (nextValidYear m d f y)) m := by
  induction f generalizing y with
  | zero =>
      obtain ⟨k, hk, hv⟩ := hex
      have hk0 : k = 0 := by omega
      subst hk0
      simpa [nextValidYear] using hv
  | succ n ih =>
      simp only [nextValidYear]
      split_ifs with hv0
      · exact hv0
      · apply ih
        obtain ⟨k, hk, hv⟩ := hex
        cases k with
        | zero => exact absurd (by simpa using hv) hv0
        | succ k' =>
            exact ⟨k', by omega, by rwa [show y + 1 + k' = y + (k' + 1) by omega]⟩

theorem nextValidYear_valid (m d y0 y : Nat) (hm1 : 1 ≤ m) (hm2 : m ≤ 12)
    (hd : d ≤ monthDays (isLeap y0) m) :
    d ≤ monthDays (isLeap (nextValidYear m d 8 y)) m := by
  apply nextValidYear_found
  by_cases hm : m = 2
  · subst hm
    have h29 : monthDays (isLeap y0) 2 ≤ 29 := by cases isLeap y0 <;> decide
    rcases Nat.lt_or_ge d 29 with h | h
    · have := monthDays_lb (isLeap (y + 0)) 2 (by omega) (by omega)
      exact ⟨0, by omega, by omega⟩
    · have hd29 : d = 29 := by omega
      obtain ⟨k, hk1, hk8, hkL⟩ := leap_exists_in_eight y
      refine ⟨k, by omega, ?_⟩
      rw [hkL]
      have h2 : monthDays true 2 = 29 := by decide
      omega
  · refine ⟨0, by omega, ?_⟩
    rw [monthDays_eq_of_ne_two (isLeap (y + 0)) (isLeap y0) m hm]
    exact hd

theorem yearlyIdx_ge (m d y0 i : Nat) : y0 ≤ yearlyIdx m d y0 i := by
  induction i with
  | zero => exact Nat.le_refl _
  | succ n ih =>
      have := (nextValidYear_bounds m d (yearlyIdx m d y0 n + 1) 8).1
      simp only [yearlyIdx]
      omega

theorem yearlyIdx_lt_succ (m d y0 i : Nat) :
    yearlyIdx m d y0 i < yearlyIdx m d y0 (i + 1) := by
  have := (nextValidYear_bounds m d (yearlyIdx m d y0 i + 1) 8).1
  simp only [yearlyIdx]
  omega

theorem yearlyIdx_valid (m d y0 i : Nat) (hm1 : 1 ≤ m) (hm2 : m ≤ 12)
    (hd : d ≤ monthDays (isLeap y0) m) :
    d ≤ monthDays (isLeap (yearlyIdx m d y0 i)) m := by
  cases i with
  | zero => exact hd
  | succ n => exact nextValidYear_valid m d y0 _ hm1 hm2 hd

/-! ### Properties of the rule instance stream -/

theorem anchors_zero (rule : Freq) (s : DateTime) (h : validDT s) :
    anchors rule s 0 = s := by
  obtain ⟨y, m, d, hh, mi, ss⟩ := s
  obtain ⟨hy, hm1, hm2, hd1, hd2, -, -, -⟩ := h
  simp only at hy hm1 hm2
  cases rule
  · rfl
  · rfl
  · simp [anchors, monthlyIdx, monthIdxOf, DateTime.mk.injEq]
    omega
  · rfl

theorem todOf_anchors (rule : Freq) (s : DateTime) (i : Nat) :
    todOf (anchors rule s i) = todOf s := by
  cases rule
  · exact todOf_addDays s i
  · exact todOf_addDays s (7 * i)
  · rfl
  · rfl

theorem validDT_anchors (rule : Freq) (s : DateTime) (i : Nat) (h : validDT s) :
    validDT (anchors rule s i) := by
  cases rule
  · exact validDT_addDays s h i
  · exact validDT_addDays s h (7 * i)
  · obtain ⟨y, m, d, hh, mi, ss⟩ := s
    obtain ⟨hy, hm1, hm2, hd1, hd2, ht1, ht2, ht3⟩ := h
    simp only at hy hm1 hm2 hd1 hd2 ht1 ht2 ht3
    have hdiv := monthIdxOf_div y m hm1 hm2
    have hub := monthDays_ub (isLeap y) m
    have hge := monthlyIdx_ge d (monthIdxOf y m) i
    have hM0 : 12 ≤ monthIdxOf y m := by unfold monthIdxOf; omega
    have h0 : d ≤ dimM (monthIdxOf y m) := by
      unfold dimM
      rw [hdiv.1, hdiv.2]
      exact hd2
    have hv := monthlyIdx_valid d (monthIdxOf y m) i (by omega) h0
    unfold dimM at hv
    simp only [anchors, validDT]
    exact ⟨by omega, by omega, by omega, hd1, hv, ht1, ht2, ht3⟩
  · obtain ⟨y, m, d, hh, mi, ss⟩ := s
    obtain ⟨hy, hm1, hm2, hd1, hd2, ht1, ht2, ht3⟩ := h
    simp only at hy hm1 hm2 hd1 hd2 ht1 ht2 ht3
    have hyge := yearlyIdx_ge m d y i
    have hv := yearlyIdx_valid m d y i hm1 hm2 hd2
    simp only [anchors, validDT]
    exact ⟨by omega, hm1, hm2, hd1, hv, ht1, ht2, ht3⟩

theorem anchors_growth (rule : Freq) (s : DateTime) (i : Nat) (h : validDT s) :
    secs (anchors rule s i) + 86400 ≤ secs (anchors rule s (i + 1)) := by
  cases rule
  · show secs (addDays s i) + 86400 ≤ secs (addDays s (i + 1))
    rw [secs_addDays s h, secs_addDays s h]
    omega
  · show secs (addDays s (7 * i)) + 86400 ≤ secs (addDays s (7 * (i + 1)))
    rw [secs_addDays s h, secs_addDays s h]
    omega
  · obtain ⟨y, m, d, hh, mi, ss⟩ := s
    obtain ⟨hy, hm1, hm2, hd1, hd2, -, -, -⟩ := h
    simp only at hy hm1 hm2
    have hs1 : ∀ j, secs (anchors .monthly ⟨y, m, d, hh, mi, ss⟩ j)
        = 86400 * daysOfM (monthlyIdx d (monthIdxOf y m) j) d
          + (3600 * hh + 60 * mi + ss) := fun j => rfl
    rw [hs1 i, hs1 (i + 1)]
    have hM0 : 12 ≤ monthIdxOf y m := by unfold monthIdxOf; omega
    have hge := monthlyIdx_ge d (monthIdxOf y m) i
    have hlt := monthlyIdx_lt_succ d (monthIdxOf y m) i
    have := daysOfM_mono (monthlyIdx d (monthIdxOf y m) i)
      (monthlyIdx d (monthIdxOf y m) (i + 1)) d (by omega) hlt
    omega
  · obtain ⟨y, m, d, hh, mi, ss⟩ := s
    obtain ⟨hy, hm1, hm2, hd1, hd2, -, -, -⟩ := h
    simp only at hy hm1 hm2
    have hs1 : ∀ j, secs (anchors .yearly ⟨y, m, d, hh, mi, ss⟩ j)
        = 86400 * daysOfYMD (yearlyIdx m d y j) m d
          + (3600 * hh + 60 * mi + ss) := fun j => rfl
    rw [hs1 i, hs1 (i + 1)]
    have hge := yearlyIdx_ge m d y i
    have hlt := yearlyIdx_lt_succ m d y i
    have := daysOfYMD_year_lt (yearlyIdx m d y i) (yearlyIdx m d y (i + 1)) m d
      (by omega) hlt
    omega

theorem secs_anchors_lb (rule : Freq) (s : DateTime) (i : Nat) (h : validDT s) :
    secs s + 86400 * i ≤ secs (anchors rule s i) := by
  induction i with
  | zero => rw [anchors_zero rule s h]; omega
  | succ n ih =>
      have := anchors_growth rule s n h
      omega

theorem secs_anchors_mono (rule : Freq) (s : DateTime) (h : validDT s)
    (i j : Nat) (hij : i ≤ j) :
    secs (anchors rule s i) ≤ secs (anchors rule s j) := by
  induction j with
  | zero =>
      have hi : i = 0 := by omega
      subst hi
      exact Nat.le_refl _
  | succ n ih =>
      rcases Nat.lt_or_ge i (n + 1) with h' | h'
      · have := ih (by omega)
        have := anchors_growth rule s n h
        omega
      · have hi : i = n + 1 := by omega
        subst hi
        exact Nat.le_refl _

/-! ### Generic list facts used below -/

theorem snd_mem_of_mem_enum {α : Type} {l : List α} {x : Nat × α}
    (h : x ∈ l.enum) : x.2 ∈ l := by
  obtain ⟨hb, h2⟩ := List.getElem?_eq_some.mp (List.mem_enum_iff_getElem?.mp h)
  exact h2 ▸ List.getElem_mem hb

theorem length_le_of_true_prefix {α : Type} (p : α → Bool) :
    ∀ (l l' : List α), l' <+: l → (∀ x ∈ l', p x = true) →
      l'.length ≤ (l.takeWhile p).length := by
  intro l
  induction l with
  | nil =>
      intro l' h _
      simpa using h.length_le
  | cons a t ih =>
      intro l' hpre hall
      cases l' with
      | nil => simp
      | cons b t' =>
          obtain ⟨hb, ht'⟩ := List.cons_prefix_cons.mp hpre
          subst hb
          rw [List.takeWhile_cons, if_pos (hall b (by simp))]
          simpa using ih t' ht' (fun x hx => hall x (by simp [hx]))

/-! ### Shape of the bounded rule stream -/

theorem rruleList_mem (rule : Freq) (s : DateTime) (count : Option Nat)
    (u : Option DateTime) (dts : List DateTime) (dt : DateTime)
    (h : rruleList rule s count u = some dts) (hdt : dt ∈ dts) :
    ∃ n, dt = anchors rule s n := by
  cases count with
  | none =>
      cases u with
      | none => simp [rruleList] at h
      | some u0 =>
          simp only [rruleList, Option.some.injEq] at h
          subst h
          have hmem := (List.takeWhile_prefix _).subset hdt
          obtain ⟨n, -, hn⟩ := List.mem_map.mp hmem
          exact ⟨n, hn.symm⟩
  | some k =>
      cases u with
      | none =>
          simp only [rruleList, Option.some.injEq] at h
          subst h
          obtain ⟨n, -, hn⟩ := List.mem_map.mp hdt
          exact ⟨n, hn.symm⟩
      | some u0 =>
          simp only [rruleList, Option.some.injEq] at h
          subst h
          have hmem := (List.takeWhile_prefix _).subset hdt
          obtain ⟨n, -, hn⟩ := List.mem_map.mp hmem
          exact ⟨n, hn.symm⟩

theorem RECURRENCE_MAP_eq_none (f : String)
    (hf : f ∉ ["None", "Daily", "Weekly", "Monthly", "Yearly"]) :
    RECURRENCE_MAP f = none := by
  simp only [List.mem_cons, List.not_mem_nil, or_false, not_or] at hf
  obtain ⟨h0, h1, h2, h3, h4⟩ := hf
  unfold RECURRENCE_MAP
  rw [if_neg h1, if_neg h2, if_neg h3, if_neg h4]

/-! ### Claim theorems -/

/-- C2: for every prototype event, calling `expand_recurrence` with
frequency `"None"` (for any count and until) returns exactly the
single-element sequence holding the prototype, with id, title, start
and end unchanged and no new identifier minted. -/
theorem expand_freq_none (genId : Nat → String) (e : Event)
    (count : Option Int) (u : Option Date) :
    expand_recurrence genId e "None" count u = some [e] := rfl

/-- C6 (amended): for every frequency argument that is not one of the
five recognized tags, `expand_recurrence` does not fail: it returns
normally with the single-element sequence holding the prototype
unchanged.  (The claimed `InvalidRecurrence` failure does not exist in
the code.) -/
theorem expand_unrecognized_freq (genId : Nat → String) (e : Event)
    (f : String) (count : Option Int) (u : Option Date)
    (hf : f ∉ ["None", "Daily", "Weekly", "Monthly", "Yearly"]) :
    expand_recurrence genId e f count u = some [e] := by
  unfold expand_recurrence
  rw [RECURRENCE_MAP_eq_none f hf]

/-- C6 witness: the amended claim at the concrete unrecognized
frequency `"Hourly"`. -/
theorem expand_unrecognized_freq_witness :
    ("Hourly" ∉ ["None", "Daily", "Weekly", "Monthly", "Yearly"]) ∧
      expand_recurrence sampleGenId sampleEvent "Hourly" none none
        = some [sampleEvent] :=
  ⟨by decide,
    expand_unrecognized_freq sampleGenId sampleEvent "Hourly" none none (by decide)⟩

/-- C6 counterexample: at the unrecognized frequency `"Biweekly"` the
call returns normally with the prototype — it does not fail with any
error kind, contradicting the claim as stated. -/
theorem expand_biweekly_returns_normally :
    expand_recurrence sampleGenId sampleEvent "Biweekly" (some 3) none
      = some [sampleEvent] := rfl

/-- C10: for every frequency argument that is not a key of the
recurrence map, `expand_recurrence` returns normally with the
single-element sequence holding the prototype — identical behavior to
frequency `"None"` — and signals no error of any kind. -/
theorem expand_unrecognized_like_none (genId : Nat → String) (e : Event)
    (f : String) (count : Option Int) (u : Option Date)
    (hf : f ∉ ["None", "Daily", "Weekly", "Monthly", "Yearly"]) :
    expand_recurrence genId e f count u = expand_recurrence genId e "None" count u ∧
      expand_recurrence genId e f count u = some [e] := by
  have h := RECURRENCE_MAP_eq_none f hf
  constructor
  · unfold expand_recurrence
    rw [h]
    rfl
  · unfold expand_recurrence
    rw [h]

/-- C10 witness: the claim at the concrete unrecognized frequency
`"Quarterly"`. -/
theorem expand_unrecognized_like_none_witness :
    ("Quarterly" ∉ ["None", "Daily", "Weekly", "Monthly", "Yearly"]) ∧
      (expand_recurrence sampleGenId sampleEvent "Quarterly" (some 4) none
          = expand_recurrence sampleGenId sampleEvent "None" (some 4) none ∧
        expand_recurrence sampleGenId sampleEvent "Quarterly" (some 4) none
          = some [sampleEvent]) :=
  ⟨by decide,
    expand_unrecognized_like_none sampleGenId sampleEvent "Quarterly" (some 4) none
      (by decide)⟩

/-- C7 (amended): a supplied count that is zero or negative is ignored
— the call behaves exactly as if no count had been supplied, and no
error is raised.  (The claimed `InvalidBound` failure does not exist
in the code.) -/
theorem expand_nonpos_count_ignored (genId : Nat → String) (e : Event)
    (f : String) (c : Int) (u : Option Date) (hc : c ≤ 0) :
    expand_recurrence genId e f (some c) u = expand_recurrence genId e f none u := by
  unfold expand_recurrence
  cases RECURRENCE_MAP f with
  | none => rfl
  | some rule => simp [if_neg (show ¬(0 < c) by omega)]

/-- C7 witness: the amended claim at the concrete count `-1`. -/
theorem expand_nonpos_count_ignored_witness :
    ((-1 : Int) ≤ 0) ∧
      expand_recurrence sampleGenId sampleEvent "Daily" (some (-1))
          (some ⟨2024, 1, 3⟩)
        = expand_recurrence sampleGenId sampleEvent "Daily" none
          (some ⟨2024, 1, 3⟩) :=
  ⟨by decide,
    expand_nonpos_count_ignored sampleGenId sampleEvent "Daily" (-1)
      (some ⟨2024, 1, 3⟩) (by decide)⟩

/-- C7 counterexample: with the zero-or-negative count `-1` supplied,
the call returns normally (a value, not an error), contradicting the
claimed `InvalidBound` failure. -/
theorem expand_negative_count_returns_normally :
    (expand_recurrence sampleGenId sampleEvent "Daily" (some (-1))
        (some ⟨2024, 1, 3⟩)).isSome = true := rfl

/-- C8 (amended): a supplied count of 0 is treated as "no count bound"
— the call behaves exactly as if no count had been supplied.  The
result is then governed by `until` alone (and may be empty when
`until` precedes the prototype's start date); with no `until` either,
generation is unbounded (the loop never terminates — there is no
safety cap). -/
theorem expand_count_zero_no_bound (genId : Nat → String) (e : Event)
    (f : String) (u : Option Date) :
    expand_recurrence genId e f (some 0) u = expand_recurrence genId e f none u := by
  unfold expand_recurrence
  cases RECURRENCE_MAP f <;> rfl

/-- C8 counterexample: with count 0 and an `until` date before the
prototype's start, the result is the empty sequence — refuting the
claim that the result is never empty. -/
theorem expand_count_zero_empty_result :
    expand_recurrence sampleGenId sampleEvent "Monthly" (some 0)
      (some ⟨2023, 12, 1⟩) = some [] := rfl

/-- C9: with a recognized repeating frequency and neither a positive
count nor an until date, the instance loop never terminates — the
embedding returns `none` (divergence), there is no safety bound. -/
theorem expand_no_bounds_diverges :
    expand_recurrence sampleGenId sampleEvent "Daily" none none = none := rfl

/-- C3: for every prototype, recognized repeating frequency, and
positive count `k` supplied with no until date, `expand_recurrence`
returns a sequence of length exactly `k`. -/
theorem expand_count_length (genId : Nat → String) (e : Event) (freq : String)
    (rule : Freq) (k : Int) (hr : RECURRENCE_MAP freq = some rule) (hk : 0 < k) :
    ∃ l, expand_recurrence genId e freq (some k) none = some l ∧
      l.length = k.toNat := by
  refine ⟨((List.range k.toNat).map (anchors rule e.start)).enum.map
    (fun p => mkInst genId e p.1 p.2), ?_, ?_⟩
  · simp only [expand_recurrence, hr]
    simp [rruleList, if_pos hk]
  · simp [List.enum_length]

/-- C3 witness: weekly expansion of the sample event with count 3 has
exactly 3 occurrences. -/
theorem expand_count_length_witness :
    (0 : Int) < 3 ∧
      ∃ l, expand_recurrence sampleGenId sampleEvent "Weekly" (some 3) none
          = some l ∧ l.length = (3 : Int).toNat :=
  ⟨by decide,
    expand_count_length sampleGenId sampleEvent "Weekly" .weekly 3 rfl (by decide)⟩

/-- C5: in every expansion under a recognized repeating frequency,
occurrence 0 keeps the prototype's title unmodified, and occurrence
`i` (for `i ≥ 1`) gets the prototype's title with `" (i+1)"`
appended. -/
theorem expand_titles (genId : Nat → String) (e : Event) (freq : String)
    (rule : Freq) (count : Option Int) (u : Option Date) (l : List Event)
    (hr : RECURRENCE_MAP freq = some rule)
    (h : expand_recurrence genId e freq count u = some l) :
    ∀ i (hi : i < l.length),
      (l.get ⟨i, hi⟩).title =
        if i = 0 then e.title else e.title ++ " (" ++ toString (i + 1) ++ ")" := by
  simp only [expand_recurrence, hr] at h
  obtain ⟨dts, hdts, hl⟩ := Option.map_eq_some'.mp h
  subst hl
  intro i hi
  rw [List.get_eq_getElem, List.getElem_map, List.getElem_enum]
  simp [mkInst]

/-- C5 witness: the title of occurrence 1 of the 3-occurrence daily
expansion of the sample event. -/
theorem expand_titles_witness :
    (((expand_recurrence sampleGenId sampleEvent "Daily" (some 3)
        none).getD []).get ⟨1, by decide⟩).title =
      if 1 = 0 then sampleEvent.title
      else sampleEvent.title ++ " (" ++ toString (1 + 1) ++ ")" :=
  expand_titles sampleGenId sampleEvent "Daily" .daily (some 3) none _ rfl rfl
    1 (by decide)

/-- C1: whenever `expand_recurrence` returns a sequence (any
frequency, any count/until combination), every occurrence in it has
exactly the prototype's duration `end - start`, regardless of the
calendar irregularities met while shifting `start`. -/
theorem expand_duration (genId : Nat → String) (e : Event) (freq : String)
    (count : Option Int) (u : Option Date) (l : List Event)
    (hs : validDT e.start) (he : validDT e.end_)
    (hse : secs e.start ≤ secs e.end_)
    (h : expand_recurrence genId e freq count u = some l) :
    ∀ o ∈ l, secsZ o.end_ - secsZ o.start = secsZ e.end_ - secsZ e.start := by
  intro o ho
  cases hr : RECURRENCE_MAP freq with
  | none =>
      simp only [expand_recurrence, hr, Option.some.injEq] at h
      subst h
      simp only [List.mem_singleton] at ho
      subst ho
      ring
  | some rule =>
      simp only [expand_recurrence, hr] at h
      obtain ⟨dts, hdts, hl⟩ := Option.map_eq_some'.mp h
      subst hl
      obtain ⟨⟨i, dt⟩, hmem, rfl⟩ := List.mem_map.mp ho
      have hdt : dt ∈ dts := snd_mem_of_mem_enum hmem
      obtain ⟨n, rfl⟩ := rruleList_mem rule e.start _ _ dts dt hdts hdt
      have hv := validDT_anchors rule e.start n hs
      have hδ : (0 : Int) ≤ secsZ e.end_ - secsZ e.start := by
        unfold secsZ
        omega
      have hadd := secsZ_addSecsZ (anchors rule e.start n) hv
        (secsZ e.end_ - secsZ e.start) hδ
      simp only [mkInst]
      omega

/-- C1 witness: durations of the 2-occurrence monthly expansion of the
sample event all equal the prototype's 3-hour duration. -/
theorem expand_duration_witness :
    validDT sampleEvent.start ∧ secs sampleEvent.start ≤ secs sampleEvent.end_ ∧
      (∀ o ∈ (expand_recurrence sampleGenId sampleEvent "Monthly" (some 2)
          none).getD [],
        secsZ o.end_ - secsZ o.start
          = secsZ sampleEvent.end_ - secsZ sampleEvent.start) :=
  ⟨by decide, by decide,
    expand_duration sampleGenId sampleEvent "Monthly" (some 2) none _
      (by decide) (by decide) (by decide) rfl⟩

/-- C4: with a recognized repeating frequency, no count and an until
date `u`, the bound is 23:59:59 of `u`'s day: the expansion returns a
sequence in which every occurrence's start date is at most `u` (an
occurrence on `u` itself passes the bound), and the next rule instance
after the last returned one would fall on a date after `u`. -/
theorem expand_until_bound (genId : Nat → String) (e : Event) (freq : String)
    (rule : Freq) (u : Date) (hs : validDT e.start)
    (hr : RECURRENCE_MAP freq = some rule) :
    ∃ l, expand_recurrence genId e freq none (some u) = some l ∧
      (∀ o ∈ l, dayIndex o.start ≤ dayIndexD u) ∧
      dayIndexD u < dayIndex (anchors rule e.start l.length) := by
  simp only [expand_recurrence, hr, rruleList, Option.map_some']
  set U : DateTime := ⟨u.y, u.m, u.d, 23, 59, 59⟩ with hUdef
  set fuel : Nat := untilFuel e.start U with hfueldef
  set L : List DateTime := (List.range fuel).map (anchors rule e.start) with hLdef
  set q : DateTime → Bool := fun a => decide (secs a ≤ secs U) with hqdef
  set tw : List DateTime := L.takeWhile q with htwdef
  have hU : secs U = 86400 * dayIndexD u + 86399 := by
    show 86400 * dayIndexD u + (3600 * 23 + 60 * 59 + 59)
        = 86400 * dayIndexD u + 86399
    omega
  refine ⟨_, rfl, ?_, ?_⟩
  · intro o ho
    obtain ⟨⟨i, dt⟩, hmem, rfl⟩ := List.mem_map.mp ho
    have hdt_tw : dt ∈ tw := snd_mem_of_mem_enum hmem
    have hq1 : q dt = true := List.mem_takeWhile_imp (htwdef ▸ hdt_tw)
    have hsecs : secs dt ≤ secs U := by
      rw [hqdef] at hq1
      exact of_decide_eq_true hq1
    have hdtL : dt ∈ L := (List.takeWhile_prefix q).subset (htwdef ▸ hdt_tw)
    rw [hLdef] at hdtL
    obtain ⟨n, -, rfl⟩ := List.mem_map.mp hdtL
    have hv := validDT_anchors rule e.start n hs
    have htod := tod_lt _ hv
    have hsa : secs (anchors rule e.start n)
        = 86400 * dayIndex (anchors rule e.start n)
          + todOf (anchors rule e.start n) := rfl
    simp only [mkInst]
    omega
  · rw [List.length_map, List.enum_length]
    have hLlen : L.length = fuel := by rw [hLdef]; simp
    have hle : tw.length ≤ fuel := by
      have := (List.takeWhile_prefix q (l := L)).length_le
      rw [htwdef]
      omega
    have hkey : secs U < secs (anchors rule e.start tw.length) := by
      rcases Nat.lt_or_ge tw.length fuel with hlt | hge
      · by_contra hq2
        push_neg at hq2
        have hPpre : (List.range (tw.length + 1)).map (anchors rule e.start) <+: L := by
          have h1 : L.take (tw.length + 1)
              = (List.range (tw.length + 1)).map (anchors rule e.start) := by
            rw [hLdef, ← List.map_take, List.take_range,
              Nat.min_eq_left (by omega)]
          rw [← h1]
          exact List.take_prefix _ _
        have hall : ∀ x ∈ (List.range (tw.length + 1)).map (anchors rule e.start),
            q x = true := by
          intro x hx
          obtain ⟨j, hj, rfl⟩ := List.mem_map.mp hx
          have hjle : j ≤ tw.length := by
            simp only [List.mem_range] at hj
            omega
          have hmono := secs_anchors_mono rule e.start hs j tw.length hjle
          rw [hqdef]
          exact decide_eq_true (by omega)
        have hlb := length_le_of_true_prefix q L _ hPpre hall
        rw [← htwdef] at hlb
        simp only [List.length_map, List.length_range] at hlb
        omega
      · have hlb := secs_anchors_lb rule e.start tw.length hs
        have htods := tod_lt e.start hs
        have hss : secs e.start
            = 86400 * dayIndex e.start + todOf e.start := rfl
        have hfuel2 : fuel = (dayIndex U + 2) - dayIndex e.start := hfueldef
        have hdiU : dayIndex U = dayIndexD u := rfl
        omega
    have hv := validDT_anchors rule e.start tw.length hs
    have htoda := tod_lt _ hv
    have hsa : secs (anchors rule e.start tw.length)
        = 86400 * dayIndex (anchors rule e.start tw.length)
          + todOf (anchors rule e.start tw.length) := rfl
    omega

/-- C4 witness: daily expansion of the sample event bounded by until
2024-01-03 (concrete scenario 2 of the spec). -/
theorem expand_until_bound_witness :
    validDT sampleEvent.start ∧
      ∃ l, expand_recurrence sampleGenId sampleEvent "Daily" none
          (some ⟨2024, 1, 3⟩) = some l ∧
        (∀ o ∈ l, dayIndex o.start ≤ dayIndexD ⟨2024, 1, 3⟩) ∧
        dayIndexD ⟨2024, 1, 3⟩
          < dayIndex (anchors .daily sampleEvent.start l.length) :=
  ⟨by decide,
    expand_until_bound sampleGenId sampleEvent "Daily" .daily ⟨2024, 1, 3⟩
      (by decide) rfl⟩

end PC
